import Mathlib

/-!
Verification of the Google Fonts explorer (`src/main.py`).

The file shallowly embeds the pure core of the program:

* `find_font_family` — two-pass, case-insensitive family resolution
  against the fetched metadata catalog;
* `get_font_urls` — stylesheet parsing (the comment + font-face block
  scan, the per-block field extraction, and the whole-body `src: url(...)`
  scan); network fetches are abstracted as explicit `Option` parameters
  holding the fetched data, since the code turns any transport error into
  `None`;
* the preview-cache population thread (`load_font_for_preview`) — as a
  small-step interleaving relation over the shared cache state.

Python regex scans are embedded as character-list scanners that are
faithful to the backtracking semantics of the concrete patterns used by
the source (each `\s*`, `\d+`, `[^x]+` piece is followed by a character
it can never match, so greedy maximal munch is exact; the one lazy group
`([^*]+?)` combined with the later `.strip()` call reduces to stripping
the maximal star-free run, as proved-by-case-analysis in the comment on
`faceMatchAt`).  Character classes are modelled at ASCII granularity,
which is exact for every string the theorems touch.
-/

/-- ASCII whitespace: models Python `\s` and the charset stripped by
`str.strip()` for the ASCII inputs at hand. -/
def isPySpace (c : Char) : Bool :=
  c = ' ' || c = '\t' || c = '\n' || c = '\r' || c = '\x0b' || c = '\x0c'

/-- ASCII digit: models Python `\d` on ASCII data. -/
def isPyDigit (c : Char) : Bool :=
  '0' ≤ c && c ≤ '9'

/-- ASCII word character: models Python `\w` on ASCII data. -/
def isPyWord (c : Char) : Bool :=
  c.isAlpha || isPyDigit c || c = '_'

/-- Python `str.lower()` (ASCII case mapping). -/
def pyLower (s : String) : String :=
  String.mk (s.data.map Char.toLower)

/-- Python `needle in hay` on strings: substring containment. -/
def pyInStr (needle hay : String) : Bool :=
  decide (needle.data <:+: hay.data)

/-- The decoded metadata JSON.  One row of `familyMetadataList` is
modelled by its `"family"` field; `none` models a row without that key
(the code reads it with `font_data.get("family", "")`). -/
structure Metadata where
  familyMetadataList : List (Option String)
deriving DecidableEq

/-- `font_data.get("family", "")`. -/
def entry_family (fd : Option String) : String :=
  fd.getD ""

/-- First loop of `find_font_family`: return the first entry whose name
equals the lowered query, ignoring case. -/
def exact_pass (l : List (Option String)) (search_name_lower : String) : Option String :=
  match l with
  | [] => none
  | fd :: rest =>
    if pyLower (entry_family fd) = search_name_lower then some (entry_family fd)
    else exact_pass rest search_name_lower

/-- Second loop of `find_font_family`: return the first entry whose
lowered name contains the lowered query as a substring. -/
def substring_pass (l : List (Option String)) (search_name_lower : String) : Option String :=
  match l with
  | [] => none
  | fd :: rest =>
    if pyInStr search_name_lower (pyLower (entry_family fd)) then some (entry_family fd)
    else substring_pass rest search_name_lower

/-- `find_font_family(search_name, metadata)`.  `metadata = none` models
both a failed metadata fetch (`None`) and a falsy (empty) response; a
present dict without the `familyMetadataList` key behaves exactly like
`some ⟨[]⟩`, which the embedding also covers. -/
def find_font_family (search_name : String) (metadata : Option Metadata) : Option String :=
  match metadata with
  | none => none
  | some md =>
    match exact_pass md.familyMetadataList (pyLower search_name) with
    | some family_name => some family_name
    | none => substring_pass md.familyMetadataList (pyLower search_name)

/-- Match a literal character sequence at the head of the input, returning
the remainder on success. -/
def dropLit : List Char → List Char → Option (List Char)
  | [], s => some s
  | _ :: _, [] => none
  | l :: ls, c :: cs => if c = l then dropLit ls cs else none

/-- Python values as stored in the result dicts.  The spec types the
`weight` field as an integer while the code stores the regex-matched digit
string, so the embedding keeps Python's dynamic typing for that field. -/
inductive PyVal where
  | str : String → PyVal
  | int : Int → PyVal
deriving DecidableEq

/-- One entry of the `font_faces` list built by `get_font_urls`. -/
structure FontFace where
  subset : String
  weight : PyVal
  style : String
  url : String
  format : String
deriving DecidableEq

/-- The dict returned by `get_font_urls` on success. -/
structure ResolvedFontData where
  family : String
  fonts : List FontFace
  all_urls : List String
deriving DecidableEq

/-- Attempt of `src:\s*url\(([^)]+)\)` at the start of `s`; on success
returns the captured group and the remainder after the match.  `\s*` is
followed by `u` (never whitespace) and `[^)]+` by `)`, so greedy maximal
munch is the exact backtracking semantics. -/
def srcUrlMatchAt (s : List Char) : Option (List Char × List Char) :=
  match dropLit "src:".data s with
  | none => none
  | some s1 =>
    match dropLit "url(".data (s1.dropWhile isPySpace) with
    | none => none
    | some s3 =>
      if (s3.takeWhile (fun c => c ≠ ')')).isEmpty then none
      else
        match s3.dropWhile (fun c => c ≠ ')') with
        | ')' :: s5 => some (s3.takeWhile (fun c => c ≠ ')'), s5)
        | _ => none

/-- `re.findall(r"src:\s*url\(([^)]+)\)", css_content)`: left-to-right
scan collecting non-overlapping matches, resuming after each match.  Fuel
counts remaining scan positions; the wrapper supplies `s.length`, which
suffices since every match consumes at least one character. -/
def findAllSrcUrlF : Nat → List Char → List (List Char)
  | 0, _ => []
  | _, [] => []
  | fuel + 1, c :: cs =>
    match srcUrlMatchAt (c :: cs) with
    | some (u, rest) => u :: findAllSrcUrlF fuel rest
    | none => findAllSrcUrlF fuel cs

def findAllSrcUrl (s : List Char) : List (List Char) :=
  findAllSrcUrlF s.length s

/-- `re.search(r"src:\s*url\(([^)]+)\)", font_face_content)`: the capture
of the leftmost match. -/
def searchSrcUrl : List Char → Option (List Char)
  | [] => none
  | c :: cs =>
    match srcUrlMatchAt (c :: cs) with
    | some (u, _) => some u
    | none => searchSrcUrl cs

/-- Attempt of `font-weight:\s*(\d+)` at the start of `s` (capture only). -/
def weightMatchAt (s : List Char) : Option (List Char) :=
  match dropLit "font-weight:".data s with
  | none => none
  | some s1 =>
    let d := (s1.dropWhile isPySpace).takeWhile isPyDigit
    if d.isEmpty then none else some d

/-- `re.search(r"font-weight:\s*(\d+)", font_face_content)`. -/
def searchWeight : List Char → Option (List Char)
  | [] => none
  | c :: cs =>
    match weightMatchAt (c :: cs) with
    | some d => some d
    | none => searchWeight cs

/-- Attempt of `font-style:\s*(\w+)` at the start of `s` (capture only). -/
def styleMatchAt (s : List Char) : Option (List Char) :=
  match dropLit "font-style:".data s with
  | none => none
  | some s1 =>
    let w := (s1.dropWhile isPySpace).takeWhile isPyWord
    if w.isEmpty then none else some w

/-- `re.search(r"font-style:\s*(\w+)", font_face_content)`. -/
def searchStyle : List Char → Option (List Char)
  | [] => none
  | c :: cs =>
    match styleMatchAt (c :: cs) with
    | some w => some w
    | none => searchStyle cs

/-- Attempt of `/\*\s*([^*]+?)\s*\*/\s*@font-face\s*\{([^}]+)\}` at the
start of `s`; on success returns (raw comment region, block content,
remainder).  The engine forces the closing `*/` onto the first `*` after
`/*` (the pieces before it match only star-free text), so the comment
region is exactly the maximal star-free run, which must be non-empty and
be followed immediately by `*/`.  The group-1 capture is that run with
the whitespace split chosen by the engine; since the caller immediately
applies `.strip()`, the embedding returns the raw run and strips once in
`mkFontFace`, which yields the identical final value. -/
def faceMatchAt (s : List Char) : Option (List Char × List Char × List Char) :=
  match dropLit "/*".data s with
  | none => none
  | some s1 =>
    if (s1.takeWhile (fun c => c ≠ '*')).isEmpty then none
    else
      match dropLit "*/".data (s1.dropWhile (fun c => c ≠ '*')) with
      | none => none
      | some s3 =>
        match dropLit "@font-face".data (s3.dropWhile isPySpace) with
        | none => none
        | some s5 =>
          match dropLit "\x7b".data (s5.dropWhile isPySpace) with
          | none => none
          | some s7 =>
            if (s7.takeWhile (fun c => c ≠ '\x7d')).isEmpty then none
            else
              match s7.dropWhile (fun c => c ≠ '\x7d') with
              | '\x7d' :: s9 =>
                some (s1.takeWhile (fun c => c ≠ '*'),
                  s7.takeWhile (fun c => c ≠ '\x7d'), s9)
              | _ => none

/-- `re.findall(face_pattern, css_content, re.MULTILINE | re.DOTALL)`:
the flags are inert because the pattern contains neither `.` nor an
anchor.  Same fuel discipline as `findAllSrcUrlF`. -/
def findFacesF : Nat → List Char → List (List Char × List Char)
  | 0, _ => []
  | _, [] => []
  | fuel + 1, c :: cs =>
    match faceMatchAt (c :: cs) with
    | some (p, q, rest) => (p, q) :: findFacesF fuel rest
    | none => findFacesF fuel cs

def findFaces (s : List Char) : List (List Char × List Char) :=
  findFacesF s.length s

/-- Python `str.strip()` (ASCII whitespace). -/
def pyStrip (l : List Char) : List Char :=
  ((l.dropWhile isPySpace).reverse.dropWhile isPySpace).reverse

/-- The inline conditional computing `format_type` from the url string. -/
def format_type (url : String) : String :=
  if pyInStr ".woff2" url then "woff2"
  else if pyInStr ".woff" url then "woff"
  else "ttf"

/-- Body of the per-match loop in `get_font_urls`: builds one
`font_faces` entry, or skips the block when `src:` has no match. -/
def mkFontFace (subset_raw content : List Char) : Option FontFace :=
  let subset := pyStrip subset_raw
  let weight := match searchWeight content with
    | some d => d
    | none => "400".data
  let style := match searchStyle content with
    | some w => w
    | none => "normal".data
  match searchSrcUrl content with
  | none => none
  | some u =>
    some { subset := String.mk subset
           weight := PyVal.str (String.mk weight)
           style := String.mk style
           url := String.mk u
           format := format_type (String.mk u) }

/-- The `font_faces` list built from one stylesheet body. -/
def parseFontFaces (css_content : List Char) : List FontFace :=
  (findFaces css_content).filterMap (fun pq => mkFontFace pq.1 pq.2)

/-- The success-branch result dict of `get_font_urls`.  Python's
`list(set(all_urls))` has unspecified order; the embedding takes the
first-occurrence deduplication and every theorem uses only membership and
emptiness, which are order-independent. -/
def parseResolved (family_name : String) (css_content : List Char) : ResolvedFontData :=
  { family := family_name
    fonts := parseFontFaces css_content
    all_urls := ((findAllSrcUrl css_content).map String.mk).dedup }

/-- The stylesheet request URL (`css_url` in the source). -/
def css_url (correct_family_name : String) : String :=
  "https://fonts.googleapis.com/css2?family=" ++
    (correct_family_name.replace " " "+") ++ ":wght@400;700&display=swap"

/-- `get_font_urls(family_name)`.  `metadata` is the (abstracted) result
of `get_google_fonts_metadata()`; `css_fetch` is the text of the
stylesheet response, `none` when the request raised.  Note the Python
falsy test `if not correct_family_name` also rejects the empty string,
and that the returned dict stores the *parameter* `family_name`, not
`correct_family_name`. -/
def get_font_urls (family_name : String) (metadata : Option Metadata)
    (css_fetch : Option String) : Option ResolvedFontData :=
  match find_font_family family_name metadata with
  | none => none
  | some correct_family_name =>
    if correct_family_name = "" then none
    else
      match css_fetch with
      | none => none
      | some css_content => some (parseResolved family_name css_content.data)

/-- The stylesheet body of the C3 test property. -/
def c3Body : String :=
  "/* latin */ @font-face \x7b font-weight: 700; font-style: italic; src: url(https://x/y.woff2); \x7d"

/-- A stylesheet body whose single matched block has no `src:`
declaration, while a `src: url(...)` occurs outside every block. -/
def demoBody : String :=
  "/* greek */ @font-face \x7b font-weight: 400; \x7d src: url(https://a/b.woff)"

/-- The normalized preview-cache key:
`f"preview_{font['family'].replace(' ', '_').replace('-', '_')}"`. -/
def font_key (family : String) : String :=
  "preview_" ++ String.mk (family.data.map (fun c => if c = ' ' || c = '-' then '_' else c))

/-- The shared `page._preview_fonts` dict, modelled as an association
list where a new binding shadows an older one (dict assignment). -/
def cacheLookup : List (String × String) → String → Option String
  | [], _ => none
  | (k2, v) :: rest, key => if key = k2 then some v else cacheLookup rest key

/-- Program counter of one background `load_font` task, one value per
atomic region of the thread body: before the `font_key in
page._preview_fonts` check, before the `get_font_urls` call, before the
`update_fonts` dict write, and finished. -/
inductive TaskPc where
  | start
  | ready
  | haveUrl
  | done
deriving DecidableEq

/-- Shared state of two concurrent `load_font` tasks for one key: the
`page._preview_fonts` dict, the number of stylesheet fetches issued so
far, and both program counters. -/
structure PreviewState where
  cache : List (String × String)
  fetches : Nat
  pc1 : TaskPc
  pc2 : TaskPc
deriving DecidableEq

/-- One atomic step of either of two concurrent `load_font` tasks for
the same key `k`.  `fr` abstracts the environment: `some u` when
`get_font_urls` succeeds with a non-empty `all_urls` whose first element
is `u`, `none` otherwise.  Each constructor is one atomic line of the
thread body: the membership check (`if font_key in page._preview_fonts:
return`), the network fetch, and the dict write in `update_fonts`.  The
check and the write are separate steps, exactly as in the source, which
performs no reservation at check time. -/
inductive PrevStep (k : String) (fr : Option String) : PreviewState → PreviewState → Prop
  | check1_hit (c : List (String × String)) (n : Nat) (p2 : TaskPc) :
      cacheLookup c k ≠ none →
      PrevStep k fr ⟨c, n, .start, p2⟩ ⟨c, n, .done, p2⟩
  | check1_miss (c : List (String × String)) (n : Nat) (p2 : TaskPc) :
      cacheLookup c k = none →
      PrevStep k fr ⟨c, n, .start, p2⟩ ⟨c, n, .ready, p2⟩
  | fetch1_hit (c : List (String × String)) (n : Nat) (p2 : TaskPc) (u : String) :
      fr = some u →
      PrevStep k fr ⟨c, n, .ready, p2⟩ ⟨c, n + 1, .haveUrl, p2⟩
  | fetch1_miss (c : List (String × String)) (n : Nat) (p2 : TaskPc) :
      fr = none →
      PrevStep k fr ⟨c, n, .ready, p2⟩ ⟨c, n + 1, .done, p2⟩
  | write1 (c : List (String × String)) (n : Nat) (p2 : TaskPc) (u : String) :
      fr = some u →
      PrevStep k fr ⟨c, n, .haveUrl, p2⟩ ⟨(k, u) :: c, n, .done, p2⟩
  | check2_hit (c : List (String × String)) (n : Nat) (p1 : TaskPc) :
      cacheLookup c k ≠ none →
      PrevStep k fr ⟨c, n, p1, .start⟩ ⟨c, n, p1, .done⟩
  | check2_miss (c : List (String × String)) (n : Nat) (p1 : TaskPc) :
      cacheLookup c k = none →
      PrevStep k fr ⟨c, n, p1, .start⟩ ⟨c, n, p1, .ready⟩
  | fetch2_hit (c : List (String × String)) (n : Nat) (p1 : TaskPc) (u : String) :
      fr = some u →
      PrevStep k fr ⟨c, n, p1, .ready⟩ ⟨c, n + 1, p1, .haveUrl⟩
  | fetch2_miss (c : List (String × String)) (n : Nat) (p1 : TaskPc) :
      fr = none →
      PrevStep k fr ⟨c, n, p1, .ready⟩ ⟨c, n + 1, p1, .done⟩
  | write2 (c : List (String × String)) (n : Nat) (p1 : TaskPc) (u : String) :
      fr = some u →
      PrevStep k fr ⟨c, n, p1, .haveUrl⟩ ⟨(k, u) :: c, n, .done, .done⟩

theorem pyLower_empty : pyLower "" = "" := rfl

theorem pyLower_eq_empty {s : String} (h : pyLower s = "") : s = "" := by
  cases s with
  | mk data =>
    have hd : data.map Char.toLower = [] := congrArg String.data h
    cases List.map_eq_nil_iff.mp hd
    rfl

theorem pyInStr_empty_needle (h : String) : pyInStr "" h = true := by
  simp only [pyInStr, decide_eq_true_eq]
  exact ⟨[], h.data, by simp⟩

theorem exact_pass_append_none {pre : List (Option String)} {s : String}
    (l : List (Option String)) (h : ∀ fd ∈ pre, pyLower (entry_family fd) ≠ s) :
    exact_pass (pre ++ l) s = exact_pass l s := by
  induction pre with
  | nil => rfl
  | cons fd rest ih =>
    have h1 : pyLower (entry_family fd) ≠ s := h fd (List.mem_cons_self fd rest)
    simp only [List.cons_append, exact_pass, if_neg h1]
    exact ih (fun fd2 hm => h fd2 (List.mem_cons_of_mem fd hm))

theorem exact_pass_cons_hit {fd : Option String} {s : String}
    (rest : List (Option String)) (h : pyLower (entry_family fd) = s) :
    exact_pass (fd :: rest) s = some (entry_family fd) := by
  simp only [exact_pass, if_pos h]

theorem exact_pass_none_of_all {l : List (Option String)} {s : String}
    (h : ∀ fd ∈ l, pyLower (entry_family fd) ≠ s) : exact_pass l s = none := by
  induction l with
  | nil => rfl
  | cons fd rest ih =>
    have h1 : pyLower (entry_family fd) ≠ s := h fd (List.mem_cons_self fd rest)
    simp only [exact_pass, if_neg h1]
    exact ih (fun fd2 hm => h fd2 (List.mem_cons_of_mem fd hm))

theorem exact_pass_lower {l : List (Option String)} {s : String} {nm : String}
    (h : exact_pass l s = some nm) : pyLower nm = s := by
  induction l with
  | nil => exact absurd h (by simp [exact_pass])
  | cons fd rest ih =>
    by_cases hc : pyLower (entry_family fd) = s
    · rw [exact_pass_cons_hit rest hc] at h
      cases h
      exact hc
    · simp only [exact_pass, if_neg hc] at h
      exact ih h

theorem exact_pass_ne_none_of_mem {l : List (Option String)} {s : String}
    {fd : Option String} (hm : fd ∈ l) (h : pyLower (entry_family fd) = s) :
    exact_pass l s ≠ none := by
  induction l with
  | nil => cases hm
  | cons fd2 rest ih =>
    by_cases hc : pyLower (entry_family fd2) = s
    · rw [exact_pass_cons_hit rest hc]
      exact Option.some_ne_none _
    · simp only [exact_pass, if_neg hc]
      rcases List.mem_cons.mp hm with h1 | h1
      · exact absurd (h1 ▸ h) hc
      · exact ih h1

theorem substring_pass_append_none {pre : List (Option String)} {s : String}
    (l : List (Option String))
    (h : ∀ fd ∈ pre, pyInStr s (pyLower (entry_family fd)) = false) :
    substring_pass (pre ++ l) s = substring_pass l s := by
  induction pre with
  | nil => rfl
  | cons fd rest ih =>
    have h1 : pyInStr s (pyLower (entry_family fd)) = false := h fd (List.mem_cons_self fd rest)
    simp only [List.cons_append, substring_pass, h1, Bool.false_eq_true, if_false]
    exact ih (fun fd2 hm => h fd2 (List.mem_cons_of_mem fd hm))

theorem substring_pass_cons_hit {fd : Option String} {s : String}
    (rest : List (Option String)) (h : pyInStr s (pyLower (entry_family fd)) = true) :
    substring_pass (fd :: rest) s = some (entry_family fd) := by
  simp only [substring_pass, h, if_true]

theorem findExactFirst (md : Metadata) (q : String) (pre post : List (Option String))
    (fd : Option String) (hsplit : md.familyMetadataList = pre ++ fd :: post)
    (hpre : ∀ fd2 ∈ pre, pyLower (entry_family fd2) ≠ pyLower q)
    (hfd : pyLower (entry_family fd) = pyLower q) :
    find_font_family q (some md) = some (entry_family fd) := by
  simp only [find_font_family, hsplit, exact_pass_append_none (fd :: post) hpre,
    exact_pass_cons_hit post hfd]

/-- C1: `resolve` performs two case-insensitive passes over the catalog.
If the catalog splits as `pre ++ fd :: post` where `fd` is the first
exact (case-insensitive) match, the result is `fd`'s name — with no
assumption about substring matches in `pre`, so an exact match anywhere
wins over any earlier strict-substring match.  If no entry matches
exactly and `fd` is the first substring match, the result is `fd`'s
name: within each pass the first occurrence in catalog order wins. -/
theorem resolve_two_pass_priority :
    (∀ (md : Metadata) (q : String) (pre post : List (Option String)) (fd : Option String),
        md.familyMetadataList = pre ++ fd :: post →
        (∀ fd2 ∈ pre, pyLower (entry_family fd2) ≠ pyLower q) →
        pyLower (entry_family fd) = pyLower q →
        find_font_family q (some md) = some (entry_family fd)) ∧
    (∀ (md : Metadata) (q : String) (pre post : List (Option String)) (fd : Option String),
        md.familyMetadataList = pre ++ fd :: post →
        (∀ fd2 ∈ md.familyMetadataList, pyLower (entry_family fd2) ≠ pyLower q) →
        (∀ fd2 ∈ pre, pyInStr (pyLower q) (pyLower (entry_family fd2)) = false) →
        pyInStr (pyLower q) (pyLower (entry_family fd)) = true →
        find_font_family q (some md) = some (entry_family fd)) := by
  constructor
  · intro md q pre post fd hsplit hpre hfd
    exact findExactFirst md q pre post fd hsplit hpre hfd
  · intro md q pre post fd hsplit hnone hpre hfd
    have hex : exact_pass (pre ++ fd :: post) (pyLower q) = none :=
      exact_pass_none_of_all (fun fd2 hm => hnone fd2 (hsplit ▸ hm))
    simp only [find_font_family, hsplit, hex,
      substring_pass_append_none (fd :: post) hpre, substring_pass_cons_hit post hfd]

/-- Witness for C1 at the catalog `["Noto Sans", "Noto"]` and query
`"Noto"`: the exact match `"Noto"` wins although the substring match
`"Noto Sans"` comes first in catalog order. -/
theorem resolve_two_pass_priority_witness :
    find_font_family "Noto" (some ⟨[some "Noto Sans", some "Noto"]⟩) = some "Noto" :=
  resolve_two_pass_priority.1 ⟨[some "Noto Sans", some "Noto"]⟩ "Noto"
    [some "Noto Sans"] [] (some "Noto") rfl (by decide) (by decide)

/-- C7 (amended): resolving a name that is already in the catalog always
succeeds and returns a name equal to it ignoring case — namely the first
catalog entry whose name equals it ignoring case.  It returns exactly the
entry's own name when no earlier entry has a case-insensitively equal
name; with two distinct case-variant duplicates the later entry resolves
to the earlier one's spelling (see `resolve_entry_reflexive_cex`). -/
theorem resolve_entry_reflexive :
    (∀ (md : Metadata) (fd : Option String), fd ∈ md.familyMetadataList →
        ∃ nm, find_font_family (entry_family fd) (some md) = some nm ∧
          pyLower nm = pyLower (entry_family fd)) ∧
    (∀ (md : Metadata) (pre post : List (Option String)) (fd : Option String),
        md.familyMetadataList = pre ++ fd :: post →
        (∀ fd2 ∈ pre, pyLower (entry_family fd2) ≠ pyLower (entry_family fd)) →
        find_font_family (entry_family fd) (some md) = some (entry_family fd)) := by
  constructor
  · intro md fd hm
    have hne := exact_pass_ne_none_of_mem hm (rfl (a := pyLower (entry_family fd)))
    cases hx : exact_pass md.familyMetadataList (pyLower (entry_family fd)) with
    | none => exact absurd hx hne
    | some nm =>
      refine ⟨nm, ?_, exact_pass_lower hx⟩
      simp only [find_font_family, hx]
  · intro md pre post fd hsplit hpre
    exact findExactFirst md (entry_family fd) pre post fd hsplit hpre rfl

/-- Witness for C7 at a concrete catalog: `"Beta"` is in the catalog and
no earlier entry is a case-variant, so it resolves to itself. -/
theorem resolve_entry_reflexive_witness :
    find_font_family "Beta" (some ⟨[some "Alpha", some "Beta"]⟩) = some "Beta" :=
  resolve_entry_reflexive.2 ⟨[some "Alpha", some "Beta"]⟩
    [some "Alpha"] [] (some "Beta") rfl (by decide)

/-- Counterexample to C7 as stated: with the catalog
`["ROBOTO", "Roboto"]` — two distinct entries equal ignoring case — the
entry `"Roboto"` resolves to `"ROBOTO"`, not to itself: the exact pass
returns the first case-insensitive hit in catalog order. -/
theorem resolve_entry_reflexive_cex :
    (some "Roboto") ∈ (Metadata.mk [some "ROBOTO", some "Roboto"]).familyMetadataList ∧
    find_font_family "Roboto" (some (Metadata.mk [some "ROBOTO", some "Roboto"])) =
      some "ROBOTO" ∧
    ("ROBOTO" : String) ≠ "Roboto" := by decide

/-- C10 (amended): for the empty query, when the catalog is non-empty and
*no* entry has an empty (or missing) name, the substring pass returns the
first entry's name, because the empty string is a substring of every
name; the result is `none` exactly when the catalog is unavailable or
empty.  (When some entry has an empty name the exact pass returns that
empty name instead — see `resolve_empty_query_cex`.) -/
theorem resolve_empty_query :
    (∀ (md : Metadata) (fd : Option String) (rest : List (Option String)),
        md.familyMetadataList = fd :: rest →
        (∀ fd2 ∈ md.familyMetadataList, entry_family fd2 ≠ "") →
        find_font_family "" (some md) = some (entry_family fd)) ∧
    (∀ md : Metadata, md.familyMetadataList ≠ [] →
        find_font_family "" (some md) ≠ none) ∧
    (find_font_family "" none = none ∧
      ∀ md : Metadata, md.familyMetadataList = [] → find_font_family "" (some md) = none) := by
  refine ⟨?_, ?_, rfl, ?_⟩
  · intro md fd rest hsplit hne
    have hex : exact_pass (fd :: rest) "" = none :=
      exact_pass_none_of_all (fun fd2 hm h => hne fd2 (hsplit ▸ hm) (pyLower_eq_empty h))
    have hsub : substring_pass (fd :: rest) "" = some (entry_family fd) :=
      substring_pass_cons_hit rest (pyInStr_empty_needle _)
    simp only [find_font_family, hsplit, pyLower_empty, hex, hsub]
  · intro md hne
    cases hl : md.familyMetadataList with
    | nil => exact absurd hl hne
    | cons fd rest =>
      have hsub : substring_pass (fd :: rest) "" = some (entry_family fd) :=
        substring_pass_cons_hit rest (pyInStr_empty_needle _)
      cases hx : exact_pass (fd :: rest) "" with
      | some nm =>
        simp only [find_font_family, hl, pyLower_empty, hx]
        exact Option.some_ne_none _
      | none =>
        simp only [find_font_family, hl, pyLower_empty, hx, hsub]
        exact Option.some_ne_none _
  · intro md hl
    simp [find_font_family, hl, exact_pass, substring_pass]

/-- Witness for C10 at the catalog `["A", "B"]`: the empty query returns
the first entry. -/
theorem resolve_empty_query_witness :
    find_font_family "" (some ⟨[some "A", some "B"]⟩) = some "A" :=
  resolve_empty_query.1 ⟨[some "A", some "B"]⟩ (some "A") [some "B"] rfl (by decide)

/-- Counterexample to C10 as stated: the catalog `["A", ""]` is non-empty
and its first entry `"A"` is non-empty, yet the empty query returns the
later empty-named entry `""` (an exact match), not `"A"`. -/
theorem resolve_empty_query_cex :
    find_font_family "" (some (Metadata.mk [some "A", some ""])) = some "" ∧
    ("" : String) ≠ "A" := by decide

/-- C2 (amended): the `family` field of a successful `get_font_urls`
result is always the *raw input query*, not the canonical resolved name:
the source builds the dict from the parameter `family_name`, using
`correct_family_name` only for the request URL. -/
theorem family_field_is_raw_query (family_name : String) (metadata : Option Metadata)
    (css_fetch : Option String) (data : ResolvedFontData)
    (h : get_font_urls family_name metadata css_fetch = some data) :
    data.family = family_name := by
  unfold get_font_urls at h
  split at h
  · cases h
  · split at h
    · cases h
    · split at h
      · cases h
      · cases h
        rfl

/-- Witness for C2 at the catalog `["Roboto"]` and query `"roboto"`:
the result's `family` is the raw query `"roboto"`. -/
theorem family_field_is_raw_query_witness :
    (parseResolved "roboto" "x".data).family = "roboto" :=
  family_field_is_raw_query "roboto" (some ⟨[some "Roboto"]⟩) (some "x")
    (parseResolved "roboto" "x".data) (by decide)

/-- Counterexample to C2 as stated: for query `"roboto"` the resolver
returns the canonical name `"Roboto"`, but the `family` field of the
returned data is the raw query `"roboto"`, which differs from it. -/
theorem family_field_raw_query_cex :
    find_font_family "roboto" (some (Metadata.mk [some "Roboto"])) = some "Roboto" ∧
    (get_font_urls "roboto" (some (Metadata.mk [some "Roboto"])) (some "x")).map
      ResolvedFontData.family = some "roboto" ∧
    ("roboto" : String) ≠ "Roboto" := by decide

/-- C3 (amended): parsing the single-block body yields exactly one
font-face record with subset `"latin"`, style `"italic"`, url
`"https://x/y.woff2"`, format `"woff2"`, and weight the *string*
`"700"` — the source stores the regex-matched digit string (default
`"400"`), not an integer. -/
theorem parse_single_block_faces :
    parseFontFaces c3Body.data =
      [{ subset := "latin", weight := PyVal.str "700", style := "italic",
         url := "https://x/y.woff2", format := "woff2" }] := by decide

/-- Counterexample to C3 as stated: the parsed record does not carry the
integer 700 as its weight — the weight value is the string `"700"`. -/
theorem parse_single_block_weight_cex :
    parseFontFaces c3Body.data ≠
      [{ subset := "latin", weight := PyVal.int 700, style := "italic",
         url := "https://x/y.woff2", format := "woff2" }] ∧
    PyVal.str "700" ≠ PyVal.int 700 := by
  constructor
  · decide
  · intro h
    cases h

theorem mkFontFace_eq_none_iff {a b : List Char} :
    mkFontFace a b = none ↔ searchSrcUrl b = none := by
  simp only [mkFontFace]
  split
  · simp_all
  · simp_all

theorem parseFontFaces_format {css : List Char} {f : FontFace}
    (h : f ∈ parseFontFaces css) : f.format = format_type f.url := by
  simp only [parseFontFaces, List.mem_filterMap] at h
  obtain ⟨pq, _, hmk⟩ := h
  simp only [mkFontFace] at hmk
  split at hmk
  · cases hmk
  · cases hmk
    rfl

/-- C6: the `format` field of every parsed font face is the value of the
pure function `format_type` at its `url`; consequently any two faces,
from any stylesheets, with the same url carry the same format; and
`format_type` is `"woff2"` when the url contains `".woff2"`, else
`"woff"` when it contains `".woff"`, else `"ttf"`. -/
theorem format_pure_function_of_url :
    (∀ (css : List Char) (f : FontFace), f ∈ parseFontFaces css →
        f.format = format_type f.url) ∧
    (∀ (css1 css2 : List Char) (f g : FontFace), f ∈ parseFontFaces css1 →
        g ∈ parseFontFaces css2 → f.url = g.url → f.format = g.format) ∧
    (∀ url : String,
        (".woff2".data <:+: url.data → format_type url = "woff2") ∧
        (¬ (".woff2".data <:+: url.data) → ".woff".data <:+: url.data →
          format_type url = "woff") ∧
        (¬ (".woff2".data <:+: url.data) → ¬ (".woff".data <:+: url.data) →
          format_type url = "ttf")) := by
  refine ⟨fun _ _ h => parseFontFaces_format h, ?_, ?_⟩
  · intro css1 css2 f g hf hg hurl
    rw [parseFontFaces_format hf, parseFontFaces_format hg, hurl]
  · intro url
    refine ⟨?_, ?_, ?_⟩
    · intro h
      simp [format_type, pyInStr, h]
    · intro h1 h2
      simp [format_type, pyInStr, h1, h2]
    · intro h1 h2
      simp [format_type, pyInStr, h1, h2]

/-- Witness for C6 at the face parsed from the C3 body. -/
theorem format_pure_function_of_url_witness :
    ({ subset := "latin", weight := PyVal.str "700", style := "italic",
       url := "https://x/y.woff2", format := "woff2" } : FontFace).format =
      format_type "https://x/y.woff2" :=
  format_pure_function_of_url.1 c3Body.data _ (by decide)

theorem lengthFilterMapFaces (l : List (List Char × List Char)) :
    (l.filterMap (fun pq => mkFontFace pq.1 pq.2)).length =
      (l.filter (fun pq => (searchSrcUrl pq.2).isSome)).length := by
  induction l with
  | nil => rfl
  | cons pq rest ih =>
    cases hs : searchSrcUrl pq.2 with
    | none =>
      have hm : mkFontFace pq.1 pq.2 = none := mkFontFace_eq_none_iff.mpr hs
      simp [List.filterMap_cons, List.filter_cons, hm, hs, ih]
    | some u =>
      have hm : mkFontFace pq.1 pq.2 ≠ none := fun h =>
        by simp [mkFontFace_eq_none_iff.mp h] at hs
      cases hmk : mkFontFace pq.1 pq.2 with
      | none => exact absurd hmk hm
      | some f => simp [List.filterMap_cons, List.filter_cons, hmk, hs, ih]

/-- C4: `all_urls` is exactly the deduplication of the whole-body
left-to-right `src: url(...)` scan (membership-wise), independent of the
block matching; a successful resolution plus a fetched body always gives
a (non-`none`) result, whatever the body; the `fonts` list keeps exactly
the matched blocks whose content has a `src: url(...)` match; and on
`demoBody` the matched block lacking `src:` is dropped from `fonts`
while the stray url outside every block still appears in `all_urls`. -/
theorem all_urls_whole_body_scan :
    (∀ (css : List Char) (fam u : String),
        u ∈ (parseResolved fam css).all_urls ↔ u ∈ (findAllSrcUrl css).map String.mk) ∧
    (∀ (family_name : String) (metadata : Option Metadata) (body r : String),
        find_font_family family_name metadata = some r → r ≠ "" →
        get_font_urls family_name metadata (some body) =
          some (parseResolved family_name body.data)) ∧
    (∀ (css : List Char) (fam : String),
        (parseResolved fam css).fonts.length =
          ((findFaces css).filter (fun pq => (searchSrcUrl pq.2).isSome)).length) ∧
    ((findFaces demoBody.data).length = 1 ∧
      (parseResolved "greek" demoBody.data).fonts = [] ∧
      "https://a/b.woff" ∈ (parseResolved "greek" demoBody.data).all_urls) := by
  refine ⟨?_, ?_, ?_, by decide, by decide, by decide⟩
  · intro css fam u
    simp [parseResolved, List.mem_dedup]
  · intro family_name metadata body r hf hr
    simp only [get_font_urls, hf, if_neg hr]
  · intro css fam
    exact lengthFilterMapFaces (findFaces css)

/-- Witness for C4: a successful resolution and fetch on `demoBody`
yields the parsed result (no failure despite the `src:`-less block). -/
theorem all_urls_whole_body_scan_witness :
    get_font_urls "greek demo" (some ⟨[some "Greek Demo"]⟩) (some demoBody) =
      some (parseResolved "greek demo" demoBody.data) :=
  all_urls_whole_body_scan.2.1 "greek demo" (some ⟨[some "Greek Demo"]⟩) demoBody
    "Greek Demo" (by decide) (by decide)

theorem dropLit_eq (l : List Char) : ∀ {s r : List Char}, dropLit l s = some r → s = l ++ r := by
  induction l with
  | nil =>
    intro s r h
    cases h
    rfl
  | cons c cs ih =>
    intro s r h
    cases s with
    | nil => cases h
    | cons d ds =>
      simp only [dropLit] at h
      split at h
      · next hd => rw [hd, List.cons_append, ← ih h]
      · cases h

theorem dropLit_append (l s : List Char) : dropLit l (l ++ s) = some s := by
  induction l with
  | nil => rfl
  | cons c cs ih => simp [dropLit, ih]

theorem takeWhileMem {p : Char → Bool} {l : List Char} {c : Char}
    (h : c ∈ l.takeWhile p) : p c = true :=
  List.mem_takeWhile_imp h

theorem dropWhileAllApp {p : Char → Bool} :
    ∀ (a b : List Char), (∀ c ∈ a, p c = true) →
      List.dropWhile p (a ++ b) = List.dropWhile p b := by
  intro a
  induction a with
  | nil => intro b _; rfl
  | cons d ds ih =>
    intro b h
    have hd : p d = true := h d (List.mem_cons_self d ds)
    rw [List.cons_append, List.dropWhile_cons_of_pos hd]
    exact ih b (fun c hc => h c (List.mem_cons_of_mem d hc))

theorem takeWhileAllApp {p : Char → Bool} :
    ∀ (a : List Char) (b0 : Char) (bs : List Char),
      (∀ c ∈ a, p c = true) → p b0 = false →
      List.takeWhile p (a ++ b0 :: bs) = a ∧
        List.dropWhile p (a ++ b0 :: bs) = b0 :: bs := by
  intro a
  induction a with
  | nil =>
    intro b0 bs _ hb
    exact ⟨List.takeWhile_cons_of_neg (by simp [hb]), List.dropWhile_cons_of_neg (by simp [hb])⟩
  | cons d ds ih =>
    intro b0 bs h hb
    have hd : p d = true := h d (List.mem_cons_self d ds)
    have hr := ih b0 bs (fun c hc => h c (List.mem_cons_of_mem d hc)) hb
    constructor
    · rw [List.cons_append, List.takeWhile_cons_of_pos hd, hr.1]
    · rw [List.cons_append, List.dropWhile_cons_of_pos hd, hr.2]

/-- The pieces of a successful `src:\s*url\(...)` match at the head of
`s`: the literal prefix, the whitespace run, the non-empty `)`-free
capture, and the closing parenthesis. -/
theorem srcUrlMatchAt_eq {s u rest : List Char} (h : srcUrlMatchAt s = some (u, rest)) :
    ∃ ws, (∀ c ∈ ws, isPySpace c = true) ∧ u ≠ [] ∧ (∀ c ∈ u, c ≠ ')') ∧
      s = "src:".data ++ ws ++ "url(".data ++ u ++ ')' :: rest := by
  unfold srcUrlMatchAt at h
  split at h
  · cases h
  · next s1 h1 =>
    split at h
    · cases h
    · next s3 h2 =>
      split at h
      · cases h
      · next hne =>
        split at h
        · next s5 hdw =>
          cases h
          refine ⟨s1.takeWhile isPySpace, fun c hc => takeWhileMem hc, ?_, ?_, ?_⟩
          · intro hnil
            rw [hnil] at hne
            exact hne rfl
          · intro c hc
            exact of_decide_eq_true (takeWhileMem hc)
          · calc s = "src:".data ++ s1 := dropLit_eq _ h1
              _ = "src:".data ++
                  (s1.takeWhile isPySpace ++ s1.dropWhile isPySpace) := by
                rw [List.takeWhile_append_dropWhile]
              _ = "src:".data ++ (s1.takeWhile isPySpace ++ ("url(".data ++ s3)) := by
                rw [dropLit_eq _ h2]
              _ = "src:".data ++ (s1.takeWhile isPySpace ++ ("url(".data ++
                  (s3.takeWhile (fun c => c ≠ ')') ++ s3.dropWhile (fun c => c ≠ ')')))) := by
                rw [List.takeWhile_append_dropWhile]
              _ = "src:".data ++ (s1.takeWhile isPySpace ++ ("url(".data ++
                  (s3.takeWhile (fun c => c ≠ ')') ++ ')' :: rest))) := by
                rw [hdw]
              _ = "src:".data ++ s1.takeWhile isPySpace ++ "url(".data ++
                  s3.takeWhile (fun c => c ≠ ')') ++ ')' :: rest := by
                simp [List.append_assoc]
        · cases h

/-- Conversely, a `src: url(...)` token at the head of the input always
matches. -/
theorem srcUrlMatchAt_shape {ws u : List Char} (t : List Char)
    (hws : ∀ c ∈ ws, isPySpace c = true) (hu : u ≠ []) (hup : ∀ c ∈ u, c ≠ ')') :
    srcUrlMatchAt ("src:".data ++ (ws ++ ("url(".data ++ (u ++ ')' :: t)))) =
      some (u, t) := by
  have hsplit := takeWhileAllApp (p := fun c => decide (c ≠ ')')) u ')' t
    (fun c hc => decide_eq_true (hup c hc)) (by decide)
  have hdw : List.dropWhile isPySpace (ws ++ ("url(".data ++ (u ++ ')' :: t))) =
      "url(".data ++ (u ++ ')' :: t) := by
    rw [dropWhileAllApp ws _ hws]
    exact List.dropWhile_cons_of_neg (by decide)
  have hie : u.isEmpty = false := by
    cases u with
    | nil => exact absurd rfl hu
    | cons a as => rfl
  unfold srcUrlMatchAt
  simp only [dropLit_append, hdw, hsplit.1, hsplit.2, hie, Bool.false_eq_true, if_false]

theorem srcUrlMatchAt_rest_length {s u rest : List Char}
    (h : srcUrlMatchAt s = some (u, rest)) : rest.length < s.length := by
  obtain ⟨ws, _, _, _, hs⟩ := srcUrlMatchAt_eq h
  rw [hs]
  simp only [List.length_append, List.length_cons,
    show ("src:".data).length = 4 from rfl, show ("url(".data).length = 4 from rfl]
  omega

/-- If the input contains a `src: url(...)` token anywhere, the
whole-body scan finds at least one match. -/
theorem findAllSrcUrlF_ne_nil :
    ∀ (fuel : Nat) (s pre ws u t : List Char), s.length ≤ fuel →
      (∀ c ∈ ws, isPySpace c = true) → u ≠ [] → (∀ c ∈ u, c ≠ ')') →
      s = pre ++ ("src:".data ++ (ws ++ ("url(".data ++ (u ++ ')' :: t)))) →
      findAllSrcUrlF fuel s ≠ [] := by
  intro fuel
  induction fuel with
  | zero =>
    intro s pre ws u t hlen _ _ _ hs
    rw [hs] at hlen
    simp only [List.length_append, List.length_cons,
      show ("src:".data).length = 4 from rfl, show ("url(".data).length = 4 from rfl] at hlen
    omega
  | succ fuel ih =>
    intro s pre ws u t hlen hws hu hup hs
    cases s with
    | nil =>
      have hlen2 := congrArg List.length hs
      simp only [List.length_nil, List.length_append, List.length_cons,
        show ("src:".data).length = 4 from rfl,
        show ("url(".data).length = 4 from rfl] at hlen2
      omega
    | cons c cs =>
      show findAllSrcUrlF (fuel + 1) (c :: cs) ≠ []
      cases hm : srcUrlMatchAt (c :: cs) with
      | some ur =>
        simp [findAllSrcUrlF, hm]
      | none =>
        cases pre with
        | nil =>
          rw [List.nil_append] at hs
          rw [hs, srcUrlMatchAt_shape t hws hu hup] at hm
          cases hm
        | cons p0 ps =>
          rw [List.cons_append] at hs
          injection hs with hc hcs
          simp only [findAllSrcUrlF, hm]
          exact ih cs ps ws u t (by
            simp only [List.length_cons] at hlen
            omega) hws hu hup hcs

/-- A successful `re.search` for the `src: url(...)` pattern inside a
string decomposes the string around the matched token. -/
theorem searchSrcUrl_decomp :
    ∀ (content : List Char) {u : List Char}, searchSrcUrl content = some u →
      ∃ pre ws t, (∀ c ∈ ws, isPySpace c = true) ∧ u ≠ [] ∧ (∀ c ∈ u, c ≠ ')') ∧
        content = pre ++ ("src:".data ++ (ws ++ ("url(".data ++ (u ++ ')' :: t)))) := by
  intro content
  induction content with
  | nil => intro u h; cases h
  | cons c cs ih =>
    intro u h
    unfold searchSrcUrl at h
    split at h
    · next u0 r hm =>
      cases h
      obtain ⟨ws, hws, hune, hup, hs⟩ := srcUrlMatchAt_eq hm
      refine ⟨[], ws, r, hws, hune, hup, ?_⟩
      rw [List.nil_append, hs]
      simp [List.append_assoc]
    · next hm =>
      obtain ⟨pre, ws, t, hws, hune, hup, hcs⟩ := ih h
      exact ⟨c :: pre, ws, t, hws, hune, hup, by rw [List.cons_append, ← hcs]⟩

/-- A successful face-block match at the head of `s` exhibits the block
content as an interior segment, with the remainder strictly shorter. -/
theorem faceMatchAt_decomp {s p q r : List Char} (h : faceMatchAt s = some (p, q, r)) :
    (∃ x y, s = x ++ (q ++ (y ++ r))) ∧ r.length < s.length := by
  unfold faceMatchAt at h
  split at h
  · cases h
  · next s1 h1 =>
    split at h
    · cases h
    · next hne1 =>
      split at h
      · cases h
      · next s3 h2 =>
        split at h
        · cases h
        · next s5 h3 =>
          split at h
          · cases h
          · next s7 h4 =>
            split at h
            · cases h
            · next hne2 =>
              split at h
              · next s9 hdw2 =>
                cases h
                have hs : s = "/*".data ++ (s1.takeWhile (fun c => c ≠ '*') ++
                    ("*/".data ++ (s3.takeWhile isPySpace ++ ("@font-face".data ++
                    (s5.takeWhile isPySpace ++ ("\x7b".data ++
                    (s7.takeWhile (fun c => c ≠ '\x7d') ++ '\x7d' :: r))))))) := by
                  calc s = "/*".data ++ s1 := dropLit_eq _ h1
                    _ = "/*".data ++ (s1.takeWhile (fun c => c ≠ '*') ++
                        s1.dropWhile (fun c => c ≠ '*')) := by
                      rw [List.takeWhile_append_dropWhile]
                    _ = "/*".data ++ (s1.takeWhile (fun c => c ≠ '*') ++
                        ("*/".data ++ s3)) := by rw [dropLit_eq _ h2]
                    _ = "/*".data ++ (s1.takeWhile (fun c => c ≠ '*') ++ ("*/".data ++
                        (s3.takeWhile isPySpace ++ s3.dropWhile isPySpace))) := by
                      rw [List.takeWhile_append_dropWhile]
                    _ = "/*".data ++ (s1.takeWhile (fun c => c ≠ '*') ++ ("*/".data ++
                        (s3.takeWhile isPySpace ++ ("@font-face".data ++ s5)))) := by
                      rw [dropLit_eq _ h3]
                    _ = "/*".data ++ (s1.takeWhile (fun c => c ≠ '*') ++ ("*/".data ++
                        (s3.takeWhile isPySpace ++ ("@font-face".data ++
                        (s5.takeWhile isPySpace ++ s5.dropWhile isPySpace))))) := by
                      rw [List.takeWhile_append_dropWhile]
                    _ = "/*".data ++ (s1.takeWhile (fun c => c ≠ '*') ++ ("*/".data ++
                        (s3.takeWhile isPySpace ++ ("@font-face".data ++
                        (s5.takeWhile isPySpace ++ ("\x7b".data ++ s7)))))) := by
                      rw [dropLit_eq _ h4]
                    _ = "/*".data ++ (s1.takeWhile (fun c => c ≠ '*') ++ ("*/".data ++
                        (s3.takeWhile isPySpace ++ ("@font-face".data ++
                        (s5.takeWhile isPySpace ++ ("\x7b".data ++
                        (s7.takeWhile (fun c => c ≠ '\x7d') ++
                          s7.dropWhile (fun c => c ≠ '\x7d')))))))) := by
                      rw [List.takeWhile_append_dropWhile]
                    _ = "/*".data ++ (s1.takeWhile (fun c => c ≠ '*') ++ ("*/".data ++
                        (s3.takeWhile isPySpace ++ ("@font-face".data ++
                        (s5.takeWhile isPySpace ++ ("\x7b".data ++
                        (s7.takeWhile (fun c => c ≠ '\x7d') ++ '\x7d' :: r))))))) := by
                      rw [hdw2]
                constructor
                · refine ⟨"/*".data ++ (s1.takeWhile (fun c => c ≠ '*') ++ ("*/".data ++
                    (s3.takeWhile isPySpace ++ ("@font-face".data ++
                    (s5.takeWhile isPySpace ++ "\x7b".data))))), ['\x7d'], ?_⟩
                  rw [hs]
                  simp [List.append_assoc]
                · rw [hs]
                  simp only [List.length_append, List.length_cons,
                    show ("/*".data).length = 2 from rfl,
                    show ("*/".data).length = 2 from rfl,
                    show ("@font-face".data).length = 10 from rfl,
                    show ("\x7b".data).length = 1 from rfl]
                  omega
              · cases h

/-- Every block content produced by the face scan is an interior segment
of the scanned text. -/
theorem findFacesF_memInf :
    ∀ (fuel : Nat) (s : List Char) {p q : List Char}, s.length ≤ fuel →
      (p, q) ∈ findFacesF fuel s → ∃ x y, s = x ++ (q ++ y) := by
  intro fuel
  induction fuel with
  | zero =>
    intro s p q _ hm
    simp [findFacesF] at hm
  | succ fuel ih =>
    intro s p q hlen hm
    cases s with
    | nil => simp [findFacesF] at hm
    | cons c cs =>
      cases hf : faceMatchAt (c :: cs) with
      | some pqr =>
        obtain ⟨p0, q0, r0⟩ := pqr
        simp only [findFacesF, hf, List.mem_cons] at hm
        obtain ⟨x, y, hcs⟩ := (faceMatchAt_decomp hf).1
        rcases hm with h1 | h1
        · obtain ⟨hp, hq⟩ := Prod.mk.injEq .. ▸ h1
          exact ⟨x, y ++ r0, by rw [hcs, hq]⟩
        · have hlt := (faceMatchAt_decomp hf).2
          obtain ⟨x2, y2, hr0⟩ := ih r0 (by
            simp only [List.length_cons] at hlen hlt
            omega) h1
          refine ⟨x ++ (q0 ++ (y ++ x2)), y2, ?_⟩
          rw [hcs, hr0]
          simp [List.append_assoc]
      | none =>
        simp only [findFacesF, hf] at hm
        obtain ⟨x, y, hcs⟩ := ih cs (by
          simp only [List.length_cons] at hlen
          omega) hm
        exact ⟨c :: x, y, by rw [List.cons_append, ← hcs]⟩

theorem mkFontFace_some_url {a b : List Char} {f : FontFace}
    (h : mkFontFace a b = some f) : ∃ u, searchSrcUrl b = some u := by
  cases hs : searchSrcUrl b with
  | none => rw [mkFontFace_eq_none_iff.mpr hs] at h; cases h
  | some u => exact ⟨u, rfl⟩

/-- C5: whenever the parsed `fonts` list is non-empty, `all_urls` is
non-empty: a parsed face comes from a block whose content contains a
`src: url(...)` token, that content is an interior segment of the body,
so the whole-body scan matches at least once.  Conversely `all_urls` can
be non-empty while `fonts` is empty (`demoBody`). -/
theorem fonts_nonempty_all_urls_nonempty :
    (∀ (css : List Char) (fam : String),
        (parseResolved fam css).fonts ≠ [] → (parseResolved fam css).all_urls ≠ []) ∧
    ((parseResolved "greek" demoBody.data).fonts = [] ∧
      (parseResolved "greek" demoBody.data).all_urls ≠ []) := by
  refine ⟨?_, by decide, by decide⟩
  intro css fam hf
  have hne : parseFontFaces css ≠ [] := hf
  obtain ⟨f, hfm⟩ : ∃ f, f ∈ parseFontFaces css := by
    cases hp : parseFontFaces css with
    | nil => exact absurd hp hne
    | cons f fs => exact ⟨f, hp ▸ List.mem_cons_self f fs⟩
  simp only [parseFontFaces, List.mem_filterMap] at hfm
  obtain ⟨pq, hpq, hmk⟩ := hfm
  obtain ⟨a, b⟩ := pq
  obtain ⟨u, hu⟩ := mkFontFace_some_url hmk
  obtain ⟨pre, ws, t, hws, hune, hup, hcontent⟩ := searchSrcUrl_decomp b hu
  obtain ⟨x, y, hcss⟩ := findFacesF_memInf css.length css (le_refl _) hpq
  have hurls : findAllSrcUrlF css.length css ≠ [] := by
    refine findAllSrcUrlF_ne_nil css.length css (x ++ pre) ws u (t ++ y)
      (le_refl _) hws hune hup ?_
    rw [hcss, hcontent]
    simp [List.append_assoc]
  intro hempty
  simp only [parseResolved] at hempty
  rw [List.dedup_eq_nil, List.map_eq_nil_iff] at hempty
  exact hurls hempty

/-- Witness for C5 at the C3 body, whose `fonts` list is non-empty. -/
theorem fonts_nonempty_all_urls_nonempty_witness :
    (parseResolved "latin" c3Body.data).all_urls ≠ [] :=
  fonts_nonempty_all_urls_nonempty.1 c3Body.data "latin" (by decide)

/-- C8 fails on the code: from the initial state where the key
`font_key "Roboto"` is absent and neither task has run, the interleaving
check₁, check₂, fetch₁, fetch₂ is reachable — both tasks observe
"absent" and both issue a stylesheet fetch, so the fetch counter reaches
2 for one normalized key.  The check and the reservation write are *not*
one indivisible operation in the source. -/
theorem preview_double_fetch :
    Relation.ReflTransGen
      (PrevStep (font_key "Roboto") (some "https://r.woff2"))
      ⟨[], 0, .start, .start⟩ ⟨[], 2, .haveUrl, .haveUrl⟩ := by
  refine Relation.ReflTransGen.head (PrevStep.check1_miss [] 0 .start rfl) ?_
  refine Relation.ReflTransGen.head (PrevStep.check2_miss [] 0 .ready rfl) ?_
  refine Relation.ReflTransGen.head (PrevStep.fetch1_hit [] 0 .ready _ rfl) ?_
  exact Relation.ReflTransGen.single (PrevStep.fetch2_hit [] 1 .haveUrl _ rfl)

/-- C9: once the key is in the cache (Resolved), a later `load_font` run
for it can only take the check-hit step and stop: whatever states it
reaches, the cache and the fetch counter are unchanged — no new
stylesheet fetch is issued and the cached URL stays as it was. -/
theorem preview_resolved_idempotent (k u : String) (fr : Option String)
    (c : List (String × String)) (n : Nat) (s : PreviewState)
    (hk : cacheLookup c k = some u)
    (hreach : Relation.ReflTransGen (PrevStep k fr) ⟨c, n, .start, .done⟩ s) :
    s.cache = c ∧ s.fetches = n := by
  have main : ∀ t : PreviewState,
      Relation.ReflTransGen (PrevStep k fr) ⟨c, n, .start, .done⟩ t →
      t.cache = c ∧ t.fetches = n ∧ (t.pc1 = .start ∨ t.pc1 = .done) ∧ t.pc2 = .done := by
    intro t ht
    induction ht with
    | refl => exact ⟨rfl, rfl, Or.inl rfl, rfl⟩
    | tail _ hstep ih =>
      obtain ⟨hc, hn, hpc1, hpc2⟩ := ih
      cases hstep <;> simp_all
  exact ⟨(main s hreach).1, (main s hreach).2.1⟩

/-- Witness for C9: with `preview_Roboto` already resolved, the single
available step leaves the cache and the fetch counter unchanged. -/
theorem preview_resolved_idempotent_witness :
    ((⟨[(font_key "Roboto", "https://r.woff2")], 0, .done, .done⟩ : PreviewState).cache =
        [(font_key "Roboto", "https://r.woff2")] ∧
      (⟨[(font_key "Roboto", "https://r.woff2")], 0, .done, .done⟩ : PreviewState).fetches
        = 0) :=
  preview_resolved_idempotent (font_key "Roboto") "https://r.woff2" none
    [(font_key "Roboto", "https://r.woff2")] 0 _ (by decide)
    (Relation.ReflTransGen.single
      (PrevStep.check1_hit [(font_key "Roboto", "https://r.woff2")] 0 .done (by decide)))

